import Mathlib

/-!
Shallow embedding of the qst-cgan state-preparation and measurement core
(`qst_cgan/states.py`, `qst_cgan/ops.py`) and proofs about it.

State kets are functions `Fin N → ℂ`, density matrices are
`Matrix (Fin N) (Fin N) ℂ`.  Fallible code (qutip's `.unit()` division by the
norm, index errors, the explicit `ValueError` raise in `num`) is modelled with
`Option`/`Except`.  The external qutip primitives (`coherent`, `fock`,
`displace`, `rand_dm`) are not part of this repository; `coherent` and `fock`
are modelled from the spec, while `displace` and `rand_dm` are passed as
explicit arguments to the functions that use them.
-/

namespace QstCgan

/-- Euclidean norm of a truncated amplitude vector, `sqrt (Σ |v i|^2)`;
this is the norm qutip's `.unit()` divides by. -/
noncomputable def vnorm {N : ℕ} (v : Fin N → ℂ) : ℝ :=
  Real.sqrt (∑ i, Complex.normSq (v i))

/-- The normalized vector `v / ‖v‖` (division by zero follows Lean's
`0⁻¹ = 0` convention; `unit`/`unitE` below guard the zero case). -/
noncomputable def unitVec {N : ℕ} (v : Fin N → ℂ) : Fin N → ℂ :=
  (((vnorm v)⁻¹ : ℝ) : ℂ) • v

open Classical in
/-- Model of qutip's `.unit()`: normalizing the zero vector is a division by
zero, modelled as `none`. -/
noncomputable def unit {N : ℕ} (v : Fin N → ℂ) : Option (Fin N → ℂ) :=
  if v = 0 then none else some (unitVec v)

/-- Error outcomes of the fallible builders: the explicit `ValueError`
raised by `num` (configuration error), an out-of-range index passed to an
indexing operation or to qutip's `fock`/`basis`, and the division by zero
when a zero accumulator is normalized. -/
inductive NumErr : Type
  | configError
  | indexError
  | divByZero
deriving DecidableEq

open Classical in
/-- Model of qutip's `.unit()` in the `Except` monad. -/
noncomputable def unitE {N : ℕ} (v : Fin N → ℂ) : Except NumErr (Fin N → ℂ) :=
  if v = 0 then Except.error NumErr.divByZero else Except.ok (unitVec v)

/-- Modelled from the spec: qutip's `fock`/`basis` ket (external primitive),
the basis vector with a `1` at Fock index `k` (spec section 4.3). -/
def fockVec (N k : ℕ) : Fin N → ℂ := fun i => if (i : ℕ) = k then 1 else 0

/-- Modelled from the spec: `fock(N, n)` as a density matrix, with a `1` at
diagonal position `n` and `0` elsewhere (spec section 4.3). -/
def fock_dm (N k : ℕ) : Matrix (Fin N) (Fin N) ℂ :=
  fun i j => if (i : ℕ) = k ∧ (j : ℕ) = k then 1 else 0

/-- Modelled from the spec: the unnormalized truncated coherent amplitude,
`alpha^n / sqrt (n!)` at Fock index `n` (spec section 4.1). -/
noncomputable def coherentUn (N : ℕ) (beta : ℂ) : Fin N → ℂ :=
  fun nn => beta ^ (nn : ℕ) / ((Real.sqrt (Nat.factorial (nn : ℕ)) : ℝ) : ℂ)

/-- Modelled from the spec: qutip's `coherent(N, beta)` (external primitive),
the truncated coherent amplitude vector normalized as a whole
(spec section 4.1). -/
noncomputable def coherent (N : ℕ) (beta : ℂ) : Fin N → ℂ :=
  unitVec (coherentUn N beta)

/-- `cat(hilbert_size, alpha, S, mu)` from `states.py`: sum over
`k ∈ range ((kend+1)/2)` with `kend = 2*S+1` of
`sign • coherent (prefactor * alpha * (-(i^mu)))` plus the same at the
negated displacement, where `sign = (-1)^int(mu > 0.5)` once `k ≥ S`,
and `prefactor = exp(1j * (pi/(S+1)) * k)`; then `.unit()`. -/
noncomputable def cat (hilbert_size : ℕ) (alpha : ℂ) (S : ℕ) (mu : ℕ) :
    Option (Fin hilbert_size → ℂ) :=
  unit (∑ k ∈ Finset.range ((2 * S + 1 + 1) / 2),
    ((if S ≤ k then (-1 : ℂ) ^ (if 1 ≤ mu then 1 else 0) else 1) •
        coherent hilbert_size
          (Complex.exp (Complex.I * ((Real.pi / ((S : ℝ) + 1) : ℝ) : ℂ) * (k : ℂ)) *
            alpha * (-(Complex.I ^ mu))) +
      (if S ≤ k then (-1 : ℂ) ^ (if 1 ≤ mu then 1 else 0) else 1) •
        coherent hilbert_size
          (-(Complex.exp (Complex.I * ((Real.pi / ((S : ℝ) + 1) : ℝ) : ℂ) * (k : ℂ)) *
            alpha * (-(Complex.I ^ mu))))))

/-- First fixed number-code family from `_get_num_prob` in `states.py`:
a pair of length-5 amplitude tables (one per logical codeword `mu`). -/
noncomputable def states17 : List (List ℂ) :=
  [[((Real.sqrt (7 - Real.sqrt 17) / Real.sqrt 6 : ℝ) : ℂ), 0, 0,
    ((Real.sqrt (Real.sqrt 17 - 1) / Real.sqrt 6 : ℝ) : ℂ), 0],
   [0, ((Real.sqrt (9 - Real.sqrt 17) / Real.sqrt 6 : ℝ) : ℂ), 0, 0,
    ((Real.sqrt (Real.sqrt 17 - 3) / Real.sqrt 6 : ℝ) : ℂ)]]

/-- Second fixed number-code family (`statesM` in `states.py`). -/
noncomputable def statesM : List (List ℂ) :=
  [[0.5458351325482939, -3.7726009161224436e-9, 4.849511177634774e-8,
    -0.7114411727633639, -7.48481181758003e-8, -1.3146003192319789e-8,
    0.44172510726665587, 1.1545802803733896e-8, 1.0609402576342428e-8,
    -0.028182506843720707, -6.0233214626778965e-9, -6.392041552216322e-9,
    0.00037641909140801935, -6.9186916801058116e-9],
   [2.48926815257019e-9, -0.7446851186077535, -8.040831059521339e-9,
    6.01942995399906e-8, -0.5706020908811399, -3.151900508005823e-8,
    -7.384935824733578e-10, -0.3460030551087218, -8.485651303145757e-9,
    -1.2114327561832047e-8, 0.011798401879159238, -4.660460771433317e-9,
    -5.090374160706911e-9, -0.00010758601713550998]]

/-- Fourth fixed number-code family (`statesP` in `states.py`). -/
noncomputable def statesP : List (List ℂ) :=
  [[0.0, 0.7562859301326029, 0.0, 0.0, -0.5151947804474741,
    -0.20807866860791188, 0.12704803323656158, 0.05101928893751686,
    0.3171198939841734],
   [-0.5583217426728544, -0.0020589109231194413, 0.0, -0.7014041964402703,
    -0.05583041652626998, 0.0005664728465725445, -0.2755044401850055,
    -0.3333309025086189, 0.0785824556163142]]

/-- Fifth fixed number-code family (`statesP2` in `states.py`). -/
noncomputable def statesP2 : List (List ℂ) :=
  [[-0.5046617350158988, 0.08380989527942606, -0.225295417417812, 0.0,
    -0.45359477373452817, -0.5236866813756252, 0.2523308675079494, 0.0,
    0.09562538828178244, 0.2172849136874009, 0.0, 0.0, 0.0,
    -0.2793663175980869, -0.08280858231312467, -0.05106696128137072],
   [-0.0014249418817930378, 0.5018692341095683, 0.4839749920101922,
    -0.3874886488913531, 0.055390715144453026, -0.25780190053922486,
    -0.08970154713375252, -0.1892386424818236, 0.10840637100094529,
    -0.19963901508324772, -0.41852779130900664, -0.05747247660559087, 0.0,
    -0.0007888071131354318, -0.1424131123943283, -0.0001441905475623907]]

/-- Third fixed number-code family (`statesM2` in `states.py`),
with genuinely complex amplitudes. -/
noncomputable def statesM2 : List (List ℂ) :=
  [[-0.45717455741713664,
    ⟨-1.0856965103853774e-6, 1.3239037829080093e-6⟩,
    ⟨-0.35772784377291084, -0.048007740168066144⟩,
    ⟨-3.5459165445315755e-6, 0.000012571453643232864⟩,
    ⟨-0.5383420820794502, -0.24179040513272307⟩,
    ⟨9.675641330014822e-7, 4.569566899500361e-6⟩,
    ⟨0.2587482691377581, 0.313044506480362⟩,
    ⟨4.1979351791851435e-6, -1.122460690803522e-6⟩,
    ⟨-0.11094500303308243, 0.20905585817734396⟩,
    ⟨-1.1837814323046472e-6, 3.8758497675466054e-7⟩,
    ⟨0.1275629945870373, -0.1177987279989385⟩,
    ⟨-2.690647673469878e-6, -3.6519804939862998e-6⟩,
    ⟨0.12095531973074151, -0.19588735180644176⟩,
    ⟨-2.6588791126371675e-6, -6.058292629669095e-7⟩,
    ⟨0.052905370429015865, -0.0626791930782206⟩,
    ⟨-1.6615538648519722e-7, 6.756126951837809e-8⟩,
    ⟨0.016378329200891946, -0.034743342821208854⟩,
    ⟨4.408946495377283e-8, 2.2826415255126898e-8⟩,
    ⟨0.002765352838800482, -0.010624191776867055⟩,
    6.429253878486627e-8,
    ⟨0.00027095836439738105, -0.002684435917226972⟩,
    ⟨1.1081202749445256e-8, -2.938812506852636e-8⟩,
    ⟨-0.000055767533641099717, -0.000525444354381421⟩,
    ⟨-1.0776974926155464e-8, -2.497769263148397e-8⟩,
    ⟨-0.000024992489351114305, -0.00008178444317382933⟩,
    ⟨-1.5079116121444066e-8, -2.0513760149701907e-8⟩,
    ⟨-5.64035228941742e-6, -0.000010297667130821428⟩,
    ⟨-1.488452012610573e-8, -1.7358623165948514e-8⟩,
    ⟨-8.909884885392901e-7, -1.04267002748775e-6⟩,
    ⟨-1.2056784102984098e-8, -1.2210951690230782e-8⟩],
   [0,
    0.5871298855433338,
    ⟨-3.3729618710801137e-6, 2.4152360811650373e-6⟩,
    ⟨-0.5233926069798007, -0.13655786303346068⟩,
    ⟨-4.623380373113224e-6, 0.000010362902695259763⟩,
    ⟨-0.17909656013941788, -0.11916639160269833⟩,
    ⟨-3.399720873431807e-6, -7.125008373682292e-7⟩,
    ⟨0.04072119358712736, -0.3719310475303641⟩,
    ⟨-7.536125619789242e-6, 1.885248226837573e-6⟩,
    ⟨-0.11393851510585044, -0.3456924286310791⟩,
    ⟨-2.3915763815197452e-6, -4.2406689395594674e-7⟩,
    ⟨0.12820184730203607, 0.0935942533049232⟩,
    ⟨-1.5407293261691393e-6, -2.4673669087089514e-6⟩,
    ⟨-0.012272903377715643, -0.13317144020065683⟩,
    ⟨-1.1260776123106269e-6, -1.6865728072273087e-7⟩,
    ⟨-0.01013345155253134, -0.0240812705564227⟩,
    ⟨0.0, -1.4163391111474348e-7⟩,
    ⟨-0.003213070562510137, -0.012363639898516247⟩,
    ⟨-1.0619280312362908e-8, -1.2021213613319027e-7⟩,
    ⟨-0.002006756716685063, -0.0026636832583059812⟩,
    ⟨0.0, -4.509035934797572e-8⟩,
    ⟨-0.00048585160444833446, -0.0005014735884977489⟩,
    ⟨-1.2286988061034212e-8, -2.1199721851825594e-8⟩,
    ⟨-0.00010897007463988193, -0.00007018240288615613⟩,
    ⟨-1.2811279935244964e-8, -1.160553871672415e-8⟩,
    ⟨-0.00001785800494916693, -6.603027186486886e-6⟩,
    -1.1639448324793031e-8,
    ⟨-2.4097385882316104e-6, -3.5223103057306496e-7⟩,
    -1.0792272866841885e-8,
    ⟨-2.597671478115077e-7, 2.622928060603902e-8⟩]]

/-- The list `all_num_codes = [states17, statesM, statesM2, statesP, statesP2]`
from `_get_num_prob` in `states.py`. -/
noncomputable def all_num_codes : List (List (List ℂ)) :=
  [states17, statesM, statesM2, statesP, statesP2]

/-- `_get_num_prob(idx)` from `states.py`: indexes `all_num_codes`. -/
noncomputable def _get_num_prob (idx : ℕ) : List (List ℂ) :=
  all_num_codes.getD idx []

/-- `num(hilbert_size, probs, mu)` from `states.py`: raises a `ValueError`
when `probs` is omitted and `hilbert_size < 32`; otherwise builds
`sum_n probs[mu][n] * fock(hilbert_size, n)` (an index error if `mu` is out
of range for the table or a Fock index reaches `hilbert_size`, which also
covers the initial `fock(hilbert_size, 0)` when `hilbert_size = 0`) and
normalizes it with `.unit()`. -/
noncomputable def num (hilbert_size : ℕ) (probs : Option (List (List ℂ))) (mu : ℕ) :
    Except NumErr (Fin hilbert_size → ℂ) :=
  if probs.isNone ∧ hilbert_size < 32 then Except.error NumErr.configError
  else if hilbert_size = 0 then Except.error NumErr.indexError
  else
    ((probs.getD (_get_num_prob 0)).get? mu).elim (Except.error NumErr.indexError)
      (fun row =>
        if row.length ≤ hilbert_size then
          unitE (∑ n ∈ Finset.range row.length, row.getD n 0 • fockVec hilbert_size n)
        else Except.error NumErr.indexError)

/-- The order `N` used by `binomial` in `states.py`: the passed value when
supplied; otherwise `Nmax = hilbert_size // (S+1) - 1` is derived and
`np.random.randint(0, Nmax)` (modelled by the injected `draw`) is drawn,
falling back to `Nmax` itself when the draw raises (i.e. when `Nmax ≤ 0`). -/
noncomputable def binomialOrder (hilbert_size S : ℕ) (draw : ℤ → ℤ) (order : Option ℤ) : ℤ :=
  order.elim
    (if 0 < (hilbert_size : ℤ) / ((S : ℤ) + 1) - 1 then
      draw ((hilbert_size : ℤ) / ((S : ℤ) + 1) - 1)
    else (hilbert_size : ℤ) / ((S : ℤ) + 1) - 1)
    (fun o => o)

/-- `binomial(hilbert_size, S, N, mu)` from `states.py`: accumulates, for
`m ∈ range N`, `1/sqrt(2^(N+1)) * (-1)^(mu*m) * sqrt(binom(N+1, m))` at Fock
index `(S+1)*m` and normalizes with `.unit()`.  `range N` is empty for
`N ≤ 0` (Python `range` of a non-positive integer), modelled by `Int.toNat`;
a Fock index at or beyond `hilbert_size` is an index error, as is the
initial `fock(hilbert_size, 0)` when `hilbert_size = 0`. -/
noncomputable def binomial (hilbert_size S : ℕ) (draw : ℤ → ℤ) (order : Option ℤ) (mu : ℕ) :
    Except NumErr (Fin hilbert_size → ℂ) :=
  if hilbert_size = 0 then Except.error NumErr.indexError
  else if (S + 1) * ((binomialOrder hilbert_size S draw order).toNat - 1) < hilbert_size then
    unitE (∑ m ∈ Finset.range (binomialOrder hilbert_size S draw order).toNat,
      (((1 / Real.sqrt (2 ^ ((binomialOrder hilbert_size S draw order).toNat + 1)) *
          (-1 : ℝ) ^ (mu * m) *
          Real.sqrt (Nat.choose ((binomialOrder hilbert_size S draw order).toNat + 1) m) : ℝ)) : ℂ) •
        fockVec hilbert_size ((S + 1) * m))
  else Except.error NumErr.indexError

/-- `gkp(hilbert_size, delta, mu, zrange)` from `states.py`.  The `zrange`
argument is shadowed by `zrange = range(-20, 20)` inside the body, so the
double lattice sum always runs over `[-20, 20) × [-20, 20)`: each term is
`exp(-delta^2*|a|^2) * exp(-1j*c^2*2*n1*n2) * coherent(hilbert_size, a)`
with `c = sqrt(pi/2)` and `a = c*(2*n1 + mu + 1j*n2)`; the total is
normalized with `.unit()`. -/
noncomputable def gkp (hilbert_size : ℕ) (delta : ℝ) (mu : ℕ) (zrange : ℤ) :
    Option (Fin hilbert_size → ℂ) :=
  unit (∑ n1 ∈ Finset.Ico (-20 : ℤ) 20, ∑ n2 ∈ Finset.Ico (-20 : ℤ) 20,
    ((((Real.exp (-(delta ^ 2) *
          Complex.abs (((Real.sqrt (Real.pi / 2) : ℝ) : ℂ) *
            (2 * (n1 : ℂ) + (mu : ℂ) + Complex.I * (n2 : ℂ))) ^ 2) : ℝ)) : ℂ) *
      Complex.exp (-Complex.I * ((Real.sqrt (Real.pi / 2) : ℝ) : ℂ) ^ 2 * 2 * (n1 : ℂ) * (n2 : ℂ))) •
      coherent hilbert_size
        (((Real.sqrt (Real.pi / 2) : ℝ) : ℂ) * (2 * (n1 : ℂ) + (mu : ℂ) + Complex.I * (n2 : ℂ))))

/-- `add_state_noise(dm, sigma, sparsity)` from `ops.py`:
`rho = (1-sigma)*dm + sigma*rand_dm(hilbertsize, sparsity)` followed by the
mandatory renormalization `rho / rho.tr()`.  The external random-density-
matrix generator is injected as `rand_dm` (its dimension argument is fixed
by the type). -/
noncomputable def add_state_noise (n : ℕ) (dm : Matrix (Fin n) (Fin n) ℂ)
    (sigma : ℝ) (sparsity : ℝ) (rand_dm : ℝ → Matrix (Fin n) (Fin n) ℂ) :
    Matrix (Fin n) (Fin n) ℂ :=
  (Matrix.trace ((1 - sigma) • dm + sigma • rand_dm sparsity))⁻¹ •
    ((1 - sigma) • dm + sigma • rand_dm sparsity)

/-- `measure(alpha, rho)` from `ops.py`: the real part of the diagonal of
`D * rho * D.dag()` with `D = displace(hilbertsize, -alpha)`.  The external
displacement-operator constructor is injected as `displace`. -/
noncomputable def measure {N : ℕ} (displace : ℂ → Matrix (Fin N) (Fin N) ℂ)
    (alpha : ℂ) (rho : Matrix (Fin N) (Fin N) ℂ) : Fin N → ℝ :=
  fun k => ((displace (-alpha) * rho * (displace (-alpha)).conjTranspose) k k).re

/-- Numpy-style assignment `q[i, j] = v` on a nested list: `none` models the
`IndexError` raised when an index is out of bounds. -/
def set2 {V : Type} (q : List (List V)) (i j : ℕ) (v : V) : Option (List (List V)) :=
  (q.get? i).elim none
    (fun row => if j < row.length then some (q.set i (row.set j v)) else none)

/-- `generalized_q(rho, xvec, yvec)` from `ops.py`: allocates
`q = np.zeros((len(xvec), len(yvec), N))` and then, with an outer loop over
`yvec` (index `i`) and an inner loop over `xvec` (index `j`), assigns
`q[i, j] = measure((x + 1j*p)/sqrt(2), rho)`. -/
noncomputable def generalized_q {N : ℕ} (displace : ℂ → Matrix (Fin N) (Fin N) ℂ)
    (rho : Matrix (Fin N) (Fin N) ℂ) (xvec yvec : List ℝ) :
    Option (List (List (Fin N → ℝ))) :=
  yvec.enum.foldl
    (fun acc ip =>
      xvec.enum.foldl
        (fun acc2 jx =>
          acc2.bind fun q =>
            set2 q ip.1 jx.1
              (measure displace (((jx.2 : ℂ) + Complex.I * (ip.2 : ℂ)) / ((Real.sqrt 2 : ℝ) : ℂ)) rho))
        acc)
    (some (List.replicate xvec.length (List.replicate yvec.length (fun _ => (0 : ℝ)))))

/-! ## Helper lemmas about norms and normalization -/

lemma vnorm_nonneg {N : ℕ} (v : Fin N → ℂ) : 0 ≤ vnorm v :=
  Real.sqrt_nonneg _

lemma vnorm_eq_zero {N : ℕ} (v : Fin N → ℂ) : vnorm v = 0 ↔ v = 0 := by
  unfold vnorm
  rw [Real.sqrt_eq_zero (Finset.sum_nonneg fun i _ => Complex.normSq_nonneg (v i))]
  constructor
  · intro h
    funext i
    have h2 := (Finset.sum_eq_zero_iff_of_nonneg
      (fun i _ => Complex.normSq_nonneg (v i))).1 h i (Finset.mem_univ i)
    exact Complex.normSq_eq_zero.1 h2
  · intro h
    subst h
    simp

lemma vnorm_pos {N : ℕ} {v : Fin N → ℂ} (h : v ≠ 0) : 0 < vnorm v :=
  lt_of_le_of_ne (vnorm_nonneg v) (fun h0 => h ((vnorm_eq_zero v).1 h0.symm))

lemma vnorm_smul_real {N : ℕ} (r : ℝ) (v : Fin N → ℂ) :
    vnorm ((r : ℂ) • v) = |r| * vnorm v := by
  unfold vnorm
  have h : ∀ i : Fin N, Complex.normSq (((r : ℂ) • v) i) = r ^ 2 * Complex.normSq (v i) := by
    intro i
    simp only [Pi.smul_apply, smul_eq_mul, Complex.normSq_mul, Complex.normSq_ofReal]
    ring
  rw [Finset.sum_congr rfl (fun i _ => h i), ← Finset.mul_sum,
    Real.sqrt_mul (sq_nonneg r), Real.sqrt_sq_eq_abs]

lemma vnorm_unitVec {N : ℕ} {v : Fin N → ℂ} (h : v ≠ 0) : vnorm (unitVec v) = 1 := by
  unfold unitVec
  rw [vnorm_smul_real, abs_of_nonneg (inv_nonneg.mpr (vnorm_nonneg v)),
    inv_mul_cancel₀ (ne_of_gt (vnorm_pos h))]

lemma unitVec_ne_zero {N : ℕ} {v : Fin N → ℂ} (h : v ≠ 0) : unitVec v ≠ 0 := by
  intro h0
  have h1 := vnorm_unitVec h
  rw [h0, (vnorm_eq_zero (0 : Fin N → ℂ)).2 rfl] at h1
  norm_num at h1

lemma unit_eq_some {N : ℕ} {v : Fin N → ℂ} (h : v ≠ 0) : unit v = some (unitVec v) := by
  unfold unit
  rw [if_neg h]

lemma unit_ne_none {N : ℕ} {v : Fin N → ℂ} (h : v ≠ 0) : unit v ≠ none := by
  rw [unit_eq_some h]
  simp

lemma unitE_eq_ok {N : ℕ} {v : Fin N → ℂ} (h : v ≠ 0) : unitE v = Except.ok (unitVec v) := by
  unfold unitE
  rw [if_neg h]

lemma unitE_zero {N : ℕ} : unitE (0 : Fin N → ℂ) = Except.error NumErr.divByZero := by
  unfold unitE
  rw [if_pos rfl]

lemma unitE_ne_config {N : ℕ} (v : Fin N → ℂ) :
    unitE v ≠ Except.error NumErr.configError := by
  unfold unitE
  split
  · intro h
    injection h with h2
    exact absurd h2 (by decide)
  · intro h
    exact Except.noConfusion h

/-! ## Helper lemmas about Fock and coherent vectors -/

lemma sum_fockVec_apply {N : ℕ} (n : ℕ) (coef : ℕ → ℂ) (f : ℕ → ℕ) (i : Fin N) :
    (∑ m ∈ Finset.range n, coef m • fockVec N (f m)) i
      = ∑ m ∈ Finset.range n, if (i : ℕ) = f m then coef m else 0 := by
  rw [Finset.sum_apply]
  refine Finset.sum_congr rfl (fun m _ => ?_)
  simp only [Pi.smul_apply, smul_eq_mul, fockVec]
  rw [mul_ite, mul_one, mul_zero]

lemma coherentUn_apply_zero (N : ℕ) (beta : ℂ) (h : 0 < N) :
    coherentUn N beta ⟨0, h⟩ = 1 := by
  simp [coherentUn, Nat.factorial]

lemma coherentUn_ne_zero (N : ℕ) (beta : ℂ) (h : 0 < N) : coherentUn N beta ≠ 0 := by
  intro h0
  have h1 := congrFun h0 ⟨0, h⟩
  rw [coherentUn_apply_zero N beta h] at h1
  simp at h1

lemma coherent_apply_zero (N : ℕ) (beta : ℂ) (h : 0 < N) :
    coherent N beta ⟨0, h⟩ = (((vnorm (coherentUn N beta))⁻¹ : ℝ) : ℂ) := by
  simp only [coherent, unitVec, Pi.smul_apply, smul_eq_mul,
    coherentUn_apply_zero N beta h, mul_one]

lemma coherent_apply_zero_pos (N : ℕ) (beta : ℂ) (h : 0 < N) :
    0 < ((coherent N beta) ⟨0, h⟩).re ∧ ((coherent N beta) ⟨0, h⟩).im = 0 := by
  rw [coherent_apply_zero N beta h]
  refine ⟨?_, by simp⟩
  rw [Complex.ofReal_re]
  exact inv_pos.mpr (vnorm_pos (coherentUn_ne_zero N beta h))

lemma coherent_ne_zero (N : ℕ) (beta : ℂ) (h : 0 < N) : coherent N beta ≠ 0 :=
  unitVec_ne_zero (coherentUn_ne_zero N beta h)

/-! ## Reductions of `cat` at `S = 0` -/

lemma cat_S0_mu0 (N : ℕ) (alpha : ℂ) :
    cat N alpha 0 0 = unit (coherent N alpha + coherent N (-alpha)) := by
  unfold cat
  congr 1
  norm_num [Finset.sum_range_one, Complex.exp_zero]
  exact add_comm _ _

lemma cat_alpha0 (N mu : ℕ) :
    cat N 0 0 mu
      = unit ((2 : ℂ) • ((-1 : ℂ) ^ (if 1 ≤ mu then 1 else 0) • coherent N 0)) := by
  unfold cat
  congr 1
  norm_num [Finset.sum_range_one]
  split_ifs <;> module

lemma cat_zero_succeeds (N mu : ℕ) (h : 0 < N) : cat N 0 0 mu ≠ none := by
  rw [cat_alpha0]
  exact unit_ne_none (smul_ne_zero two_ne_zero
    (smul_ne_zero (pow_ne_zero _ (by norm_num)) (coherent_ne_zero N 0 h)))

/-- C2 (counterexample): the claim asserts that `cat(N, alpha=0, S=0, mu)`
fails with a division by zero during normalization; at the concrete input
`N = 1, mu = 0` the accumulator is `2 • |0⟩ ≠ 0`, so normalization succeeds
and no failure occurs. -/
theorem cat_alpha_zero_counterexample : cat 1 0 0 0 ≠ none :=
  cat_zero_succeeds 1 0 (by norm_num)

/-- C2 (amended): for every `N ≥ 1` and `mu ∈ {0, 1}`, `cat(N, alpha=0, S=0, mu)`
does not fail: the unnormalized accumulator is `2·(-1)^mu` times the vacuum
coherent state, which is nonzero, so the final normalization succeeds; `alpha ≠ 0`
is not a precondition of `cat` when `S = 0`. -/
theorem cat_alpha_zero_succeeds :
    ∀ N mu : ℕ, 1 ≤ N → (mu = 0 ∨ mu = 1) → cat N 0 0 mu ≠ none :=
  fun N mu h _ => cat_zero_succeeds N mu h

/-- C2 (witness): the amended claim applied at `N = 2`, `mu = 1`. -/
theorem cat_alpha_zero_succeeds_witness :
    (1 ≤ 2 ∧ ((1 : ℕ) = 0 ∨ (1 : ℕ) = 1)) ∧ cat 2 0 0 1 ≠ none :=
  ⟨⟨by norm_num, Or.inr rfl⟩, cat_alpha_zero_succeeds 2 1 (by norm_num) (Or.inr rfl)⟩

/-- C7: for every `N ≥ 1` and `alpha ≠ 0`, `cat(N, alpha, S=0, mu=0)` equals
the unit-normalized sum of the coherent amplitude vectors at displacements
`+alpha` and `-alpha` (the standard two-component cat state), and the
returned ket has unit norm. -/
theorem cat_twocomponent :
    ∀ (N : ℕ) (alpha : ℂ), 1 ≤ N → alpha ≠ 0 →
      cat N alpha 0 0 = some (unitVec (coherent N alpha + coherent N (-alpha))) ∧
      vnorm (unitVec (coherent N alpha + coherent N (-alpha))) = 1 := by
  intro N alpha hN _
  have hv : coherent N alpha + coherent N (-alpha) ≠ 0 := by
    intro h0
    have h1 := congrFun h0 ⟨0, hN⟩
    have h2 : ((coherent N alpha + coherent N (-alpha)) ⟨0, hN⟩).re = 0 := by
      rw [h1]
      rfl
    rw [Pi.add_apply, Complex.add_re] at h2
    have ha := (coherent_apply_zero_pos N alpha hN).1
    have hb := (coherent_apply_zero_pos N (-alpha) hN).1
    linarith
  exact ⟨by rw [cat_S0_mu0, unit_eq_some hv], vnorm_unitVec hv⟩

/-- C7 (witness): the theorem applied at the claim's concrete scenario
`cat(8, 2)` (with the Python default arguments `S=0, mu=0`). -/
theorem cat_twocomponent_witness :
    (1 ≤ 8 ∧ (2 : ℂ) ≠ 0) ∧
      (cat 8 2 0 0 = some (unitVec (coherent 8 2 + coherent 8 (-2))) ∧
        vnorm (unitVec (coherent 8 2 + coherent 8 (-2))) = 1) :=
  ⟨⟨by norm_num, by norm_num⟩, cat_twocomponent 8 2 (by norm_num) (by norm_num)⟩

/-- C3: `gkp` ignores its `zrange` argument — for any two values `z1, z2`
the results coincide, because the builder always iterates the lattice
integers `n1, n2` over the fixed range `[-20, 20)`, accumulating
`exp(-delta^2*|a|^2) * exp(-1j*c^2*2*n1*n2) * coherent(N, a)` with
`a = c*(2*n1 + mu + 1j*n2)` and `c = sqrt(pi/2)`, then normalizing. -/
theorem gkp_ignores_lattice_range :
    ∀ (hilbert_size : ℕ) (delta : ℝ) (mu : ℕ) (z1 z2 : ℤ),
      gkp hilbert_size delta mu z1 = gkp hilbert_size delta mu z2 ∧
      gkp hilbert_size delta mu z1 =
        unit (∑ n1 ∈ Finset.Ico (-20 : ℤ) 20, ∑ n2 ∈ Finset.Ico (-20 : ℤ) 20,
          ((((Real.exp (-(delta ^ 2) *
                Complex.abs (((Real.sqrt (Real.pi / 2) : ℝ) : ℂ) *
                  (2 * (n1 : ℂ) + (mu : ℂ) + Complex.I * (n2 : ℂ))) ^ 2) : ℝ)) : ℂ) *
            Complex.exp (-Complex.I * ((Real.sqrt (Real.pi / 2) : ℝ) : ℂ) ^ 2 * 2 *
              (n1 : ℂ) * (n2 : ℂ))) •
            coherent hilbert_size
              (((Real.sqrt (Real.pi / 2) : ℝ) : ℂ) *
                (2 * (n1 : ℂ) + (mu : ℂ) + Complex.I * (n2 : ℂ)))) :=
  fun _ _ _ _ _ => ⟨rfl, rfl⟩

/-- C6: with a displacement-operator primitive that is the identity at
amplitude `0`, `measure(0, rho)` returns exactly the real part of the
diagonal of `rho`; in particular `measure(0, fock(5, 2))` is the population
vector `[0, 0, 1, 0, 0]`. -/
theorem measure_zero_displacement :
    (∀ (N : ℕ) (displace : ℂ → Matrix (Fin N) (Fin N) ℂ) (rho : Matrix (Fin N) (Fin N) ℂ),
        displace 0 = 1 → measure displace 0 rho = fun k => (rho k k).re) ∧
    (∀ displace : ℂ → Matrix (Fin 5) (Fin 5) ℂ, displace 0 = 1 →
        measure displace 0 (fock_dm 5 2) = ![0, 0, 1, 0, 0]) := by
  constructor
  · intro N displace rho h
    funext k
    simp [measure, h]
  · intro displace h
    funext k
    simp only [measure, neg_zero, h, Matrix.conjTranspose_one, Matrix.one_mul,
      Matrix.mul_one, fock_dm]
    fin_cases k <;> simp

/-- C6 (witness): the theorem applied with the constant-identity displacement
primitive and `rho = fock(5, 2)`. -/
theorem measure_zero_displacement_witness :
    ((fun _ : ℂ => (1 : Matrix (Fin 5) (Fin 5) ℂ)) 0 = 1) ∧
      measure (fun _ : ℂ => (1 : Matrix (Fin 5) (Fin 5) ℂ)) 0 (fock_dm 5 2) = ![0, 0, 1, 0, 0] :=
  ⟨rfl, measure_zero_displacement.2 (fun _ : ℂ => (1 : Matrix (Fin 5) (Fin 5) ℂ)) rfl⟩

/-- C8: `add_state_noise(rho, sigma=0, sparsity)` returns `rho` divided by
its trace, independent of the randomly generated density matrix, and equals
`rho` whenever `trace rho = 1`. -/
theorem add_state_noise_sigma_zero :
    ∀ (n : ℕ) (dm : Matrix (Fin n) (Fin n) ℂ) (sparsity : ℝ)
      (rand_dm : ℝ → Matrix (Fin n) (Fin n) ℂ),
      add_state_noise n dm 0 sparsity rand_dm = (Matrix.trace dm)⁻¹ • dm ∧
      (Matrix.trace dm = 1 → add_state_noise n dm 0 sparsity rand_dm = dm) := by
  intro n dm sparsity rand_dm
  have h : add_state_noise n dm 0 sparsity rand_dm = (Matrix.trace dm)⁻¹ • dm := by
    unfold add_state_noise
    norm_num
  refine ⟨h, fun htr => ?_⟩
  rw [h, htr, inv_one, one_smul]

/-- C8 (witness): the theorem applied at the 1-dimensional identity density
matrix, whose trace is `1`, with the zero random generator. -/
theorem add_state_noise_sigma_zero_witness :
    Matrix.trace (1 : Matrix (Fin 1) (Fin 1) ℂ) = 1 ∧
      add_state_noise 1 1 0 0 (fun _ => 0) = 1 :=
  ⟨by simp, (add_state_noise_sigma_zero 1 1 0 (fun _ => 0)).2 (by simp)⟩

/-- C1 (code bug): `generalized_q` allocates the output with shape
`(len(xvec), len(yvec), N)` but writes `q[i, j]` with `i` indexing `yvec`
and `j` indexing `xvec`, so whenever the two grid axes have different
lengths the assignment goes out of bounds (an `IndexError`, modelled as
`none`) instead of producing the tensor of shape `(len(yvec), len(xvec), N)`
that the claim asserts.  Both orientations of the length mismatch fail. -/
theorem generalized_q_index_error :
    generalized_q (fun _ => (1 : Matrix (Fin 1) (Fin 1) ℂ)) 1 [0] [0, 1] = none ∧
    generalized_q (fun _ => (1 : Matrix (Fin 1) (Fin 1) ℂ)) 1 [0, 1] [0] = none :=
  ⟨rfl, rfl⟩

/-- C4: `num(N, probs, mu)` raises the configuration `ValueError` exactly
when `probs` is omitted and `N < 32`; with `probs` supplied, no
configuration error is raised for any `N` (other failure modes — index
errors and the divide-by-zero of `.unit()` — are distinct outcomes). -/
theorem num_config_error_iff :
    ∀ (hilbert_size : ℕ) (probs : Option (List (List ℂ))) (mu : ℕ),
      num hilbert_size probs mu = Except.error NumErr.configError ↔
        probs = none ∧ hilbert_size < 32 := by
  intro hs probs mu
  constructor
  · intro h
    by_contra hc
    have hcond : ¬ (probs.isNone ∧ hs < 32) := by
      intro h2
      exact hc ⟨Option.isNone_iff_eq_none.1 h2.1, h2.2⟩
    unfold num at h
    rw [if_neg hcond] at h
    by_cases h0 : hs = 0
    · rw [if_pos h0] at h
      injection h with h2
      exact absurd h2 (by decide)
    · rw [if_neg h0] at h
      cases hget : (probs.getD (_get_num_prob 0)).get? mu with
      | none =>
        rw [hget, Option.elim_none] at h
        injection h with h2
        exact absurd h2 (by decide)
      | some row =>
        rw [hget, Option.elim_some] at h
        by_cases hlen : row.length ≤ hs
        · rw [if_pos hlen] at h
          exact unitE_ne_config _ h
        · rw [if_neg hlen] at h
          injection h with h2
          exact absurd h2 (by decide)
  · rintro ⟨h1, h2⟩
    subst h1
    unfold num
    rw [if_pos ⟨rfl, h2⟩]

/-- C4 (witness): the right-to-left direction applied at `N = 4 < 32` with
`probs` omitted. -/
theorem num_config_error_iff_witness :
    ((none : Option (List (List ℂ))) = none ∧ 4 < 32) ∧
      num 4 none 0 = Except.error NumErr.configError :=
  ⟨⟨rfl, by norm_num⟩, (num_config_error_iff 4 none 0).mpr ⟨rfl, by norm_num⟩⟩

/-! ## Entry values of Fock-basis superpositions -/

lemma sum_smul_fockVec_apply_eq {N : ℕ} (n : ℕ) (coef : ℕ → ℂ) (f : ℕ → ℕ)
    (i : Fin N) (m₀ : ℕ) (hm₀ : m₀ ∈ Finset.range n) (hi : (i : ℕ) = f m₀)
    (hinj : ∀ m ∈ Finset.range n, m ≠ m₀ → f m ≠ f m₀) :
    (∑ m ∈ Finset.range n, coef m • fockVec N (f m)) i = coef m₀ := by
  rw [Finset.sum_apply]
  rw [Finset.sum_eq_single m₀ ?h₀ ?h₁]
  · simp [fockVec, hi, Pi.smul_apply]
  case h₀ =>
    intro m hm hne
    have hne2 : (i : ℕ) ≠ f m := by
      rw [hi]
      exact fun hh => (hinj m hm hne) hh.symm
    simp [fockVec, Pi.smul_apply, hne2]
  case h₁ =>
    intro hm
    exact absurd hm₀ hm

lemma sum_smul_fockVec_apply_zero {N : ℕ} (n : ℕ) (coef : ℕ → ℂ) (f : ℕ → ℕ)
    (i : Fin N) (hi : ∀ m ∈ Finset.range n, (i : ℕ) ≠ f m) :
    (∑ m ∈ Finset.range n, coef m • fockVec N (f m)) i = 0 := by
  rw [Finset.sum_apply]
  refine Finset.sum_eq_zero fun m hm => ?_
  simp [fockVec, Pi.smul_apply, hi m hm]

/-! ## The default `num` tables are positive where needed -/

lemma sqrt17_lt_7 : Real.sqrt 17 < 7 := by
  nlinarith [Real.sq_sqrt (show (0 : ℝ) ≤ 17 by norm_num), Real.sqrt_nonneg 17]

lemma states17_entry00_pos : 0 < Real.sqrt (7 - Real.sqrt 17) / Real.sqrt 6 := by
  have h1 : (0 : ℝ) < 7 - Real.sqrt 17 := by
    have := sqrt17_lt_7
    linarith
  exact div_pos (Real.sqrt_pos.mpr h1) (Real.sqrt_pos.mpr (by norm_num))

lemma states17_entry11_pos : 0 < Real.sqrt (9 - Real.sqrt 17) / Real.sqrt 6 := by
  have h1 : (0 : ℝ) < 9 - Real.sqrt 17 := by
    have := sqrt17_lt_7
    linarith
  exact div_pos (Real.sqrt_pos.mpr h1) (Real.sqrt_pos.mpr (by norm_num))

/-- Unfolding of `num` on the default-table path. -/
lemma num_default (N mu : ℕ) (h32 : 32 ≤ N) (row : List ℂ)
    (hrow : states17.get? mu = some row) (hlen : row.length ≤ N) :
    num N none mu = unitE (∑ n ∈ Finset.range row.length, row.getD n 0 • fockVec N n) := by
  unfold num
  rw [if_neg (fun h2 => absurd h2.2 (by omega)), if_neg (by omega : ¬ N = 0)]
  rw [show (Option.getD (none : Option (List (List ℂ))) (_get_num_prob 0)) = states17 from rfl]
  rw [hrow, Option.elim_some, if_pos hlen]

/-- C9: with `probs` omitted (and `N ≥ 32`), `num` deterministically uses the
first fixed code family `states17 = all_num_codes[0]`: the result is the
unit-normalized sum `Σ_n states17[mu][n] • |n⟩`; the other four code tables
are never consulted. -/
theorem num_default_uses_states17 :
    ∀ N mu : ℕ, 32 ≤ N → mu < 2 →
      _get_num_prob 0 = states17 ∧
      ∃ row, states17.get? mu = some row ∧
        num N none mu =
          Except.ok (unitVec (∑ n ∈ Finset.range row.length, row.getD n 0 • fockVec N n)) := by
  intro N mu h32 hmu
  refine ⟨rfl, ?_⟩
  have hN0 : 0 < N := by omega
  interval_cases mu
  · refine ⟨_, rfl, ?_⟩
    rw [num_default N 0 h32 _ rfl (by simp only [List.length_cons, List.length_nil]; omega)]
    refine unitE_eq_ok ?_
    intro h0
    have h3 : ((Real.sqrt (7 - Real.sqrt 17) / Real.sqrt 6 : ℝ) : ℂ) ≠ 0 :=
      Complex.ofReal_ne_zero.mpr (ne_of_gt states17_entry00_pos)
    apply h3
    have h2 : (0 : Fin N → ℂ) ⟨0, hN0⟩
        = ((Real.sqrt (7 - Real.sqrt 17) / Real.sqrt 6 : ℝ) : ℂ) := by
      conv_lhs => rw [← h0]
      exact sum_smul_fockVec_apply_eq 5
        (fun n => ([((Real.sqrt (7 - Real.sqrt 17) / Real.sqrt 6 : ℝ) : ℂ), 0, 0,
          ((Real.sqrt (Real.sqrt 17 - 1) / Real.sqrt 6 : ℝ) : ℂ), 0].getD n 0))
        (fun m => m) ⟨0, hN0⟩ 0 (Finset.mem_range.mpr (by omega)) rfl
        (fun m _ hne => hne)
    simpa using h2.symm
  · refine ⟨_, rfl, ?_⟩
    rw [num_default N 1 h32 _ rfl (by simp only [List.length_cons, List.length_nil]; omega)]
    refine unitE_eq_ok ?_
    intro h0
    have hN1 : 1 < N := by omega
    have h3 : ((Real.sqrt (9 - Real.sqrt 17) / Real.sqrt 6 : ℝ) : ℂ) ≠ 0 :=
      Complex.ofReal_ne_zero.mpr (ne_of_gt states17_entry11_pos)
    apply h3
    have h2 : (0 : Fin N → ℂ) ⟨1, hN1⟩
        = ((Real.sqrt (9 - Real.sqrt 17) / Real.sqrt 6 : ℝ) : ℂ) := by
      conv_lhs => rw [← h0]
      exact sum_smul_fockVec_apply_eq 5
        (fun n => ([0, ((Real.sqrt (9 - Real.sqrt 17) / Real.sqrt 6 : ℝ) : ℂ), 0, 0,
          ((Real.sqrt (Real.sqrt 17 - 3) / Real.sqrt 6 : ℝ) : ℂ)].getD n 0))
        (fun m => m) ⟨1, hN1⟩ 1 (Finset.mem_range.mpr (by omega)) rfl
        (fun m _ hne => hne)
    simpa using h2.symm

/-- C9 (witness): the theorem applied at `N = 32`, `mu = 0`. -/
theorem num_default_uses_states17_witness :
    (32 ≤ 32 ∧ 0 < 2) ∧
      (_get_num_prob 0 = states17 ∧
        ∃ row, states17.get? 0 = some row ∧
          num 32 none 0 =
            Except.ok (unitVec (∑ n ∈ Finset.range row.length, row.getD n 0 • fockVec 32 n))) :=
  ⟨⟨le_rfl, by norm_num⟩, num_default_uses_states17 32 0 le_rfl (by norm_num)⟩

/-! ## Lemmas about `binomial` -/

lemma binomialOrder_some (hs S : ℕ) (draw : ℤ → ℤ) (o : ℤ) :
    binomialOrder hs S draw (some o) = o := rfl

lemma binomialOrder_none_nonpos (hs S : ℕ) (draw : ℤ → ℤ)
    (h : (hs : ℤ) / ((S : ℤ) + 1) - 1 ≤ 0) :
    binomialOrder hs S draw none = (hs : ℤ) / ((S : ℤ) + 1) - 1 := by
  unfold binomialOrder
  rw [Option.elim_none, if_neg (by omega)]

lemma unitVec_zero {N : ℕ} : unitVec (0 : Fin N → ℂ) = 0 := by
  simp [unitVec]

lemma vnorm_zero {N : ℕ} : vnorm (0 : Fin N → ℂ) = 0 :=
  (vnorm_eq_zero 0).2 rfl

lemma binom_coef_ne_zero (order mu m : ℕ) (hm : m ≤ order + 1) :
    (((1 / Real.sqrt (2 ^ (order + 1)) * (-1 : ℝ) ^ (mu * m) *
        Real.sqrt (Nat.choose (order + 1) m) : ℝ)) : ℂ) ≠ 0 := by
  apply Complex.ofReal_ne_zero.mpr
  have h1 : (0 : ℝ) < Real.sqrt (2 ^ (order + 1)) := Real.sqrt_pos.mpr (by positivity)
  have h2 : (0 : ℝ) < Real.sqrt (Nat.choose (order + 1) m) := by
    apply Real.sqrt_pos.mpr
    exact_mod_cast Nat.choose_pos hm
  have h3 : (-1 : ℝ) ^ (mu * m) ≠ 0 := pow_ne_zero _ (by norm_num)
  exact mul_ne_zero (mul_ne_zero (by positivity) h3) h2.ne'

/-- C10: `binomial` with an explicitly supplied order of `0` — or with the
order omitted when the derived default `hilbert_size // (S+1) - 1` is `≤ 0`,
so that the failed random draw falls back to that value — runs its
construction loop zero times, leaves the accumulator at the zero vector,
and fails with a division by zero during the final normalization. -/
theorem binomial_zero_order_div_by_zero :
    ∀ (hs S mu : ℕ) (draw : ℤ → ℤ), 1 ≤ hs →
      binomial hs S draw (some 0) mu = Except.error NumErr.divByZero ∧
      ((hs : ℤ) / ((S : ℤ) + 1) - 1 ≤ 0 →
        binomial hs S draw none mu = Except.error NumErr.divByZero) := by
  intro hs S mu draw h1
  constructor
  · unfold binomial
    rw [if_neg (by omega : ¬ hs = 0), binomialOrder_some]
    simp only [Int.toNat_zero, Nat.zero_sub, Nat.mul_zero, mul_zero,
      Finset.range_zero, Finset.sum_empty]
    rw [if_pos (by omega : 0 < hs)]
    exact unitE_zero
  · intro hmax
    unfold binomial
    rw [if_neg (by omega : ¬ hs = 0), binomialOrder_none_nonpos hs S draw hmax,
      Int.toNat_of_nonpos hmax]
    simp only [Nat.zero_sub, Nat.mul_zero, mul_zero, Finset.range_zero, Finset.sum_empty]
    rw [if_pos (by omega : 0 < hs)]
    exact unitE_zero

/-- C10 (witness): the theorem applied at `hilbert_size = 1, S = 0`
(where the derived default order is `1 // 1 - 1 = 0`). -/
theorem binomial_zero_order_div_by_zero_witness :
    (1 ≤ 1 ∧ (1 : ℤ) / ((0 : ℕ) + 1 : ℤ) - 1 ≤ 0) ∧
      binomial 1 0 (fun z => z) (some 0) 0 = Except.error NumErr.divByZero ∧
      binomial 1 0 (fun z => z) none 0 = Except.error NumErr.divByZero := by
  refine ⟨⟨le_rfl, by norm_num⟩, ?_, ?_⟩
  · exact (binomial_zero_order_div_by_zero 1 0 0 (fun z => z) le_rfl).1
  · exact (binomial_zero_order_div_by_zero 1 0 0 (fun z => z) le_rfl).2 (by norm_num)

/-- C5: for an explicitly supplied order `≥ 1` with `(S+1)*(order-1)`
inside the truncation, `binomial` succeeds and returns the normalization of
`Σ_{m<order} 1/sqrt(2^(order+1)) * (-1)^(mu*m) * sqrt(C(order+1, m)) |(S+1)m⟩`
(the sum excludes `m = order`); the returned ket has unit norm and vanishes
away from the Fock indices `(S+1)*m, m < order`.  In particular
`binomial(20, S=1, order=3, mu=0)` is nonzero exactly at Fock indices
`0, 2, 4`. -/
theorem binomial_support_and_amplitudes :
    (∀ (hs S order mu : ℕ) (draw : ℤ → ℤ), 1 ≤ order → (S + 1) * (order - 1) < hs →
      ∃ w, binomial hs S draw (some (order : ℤ)) mu = Except.ok w ∧
        w = unitVec (∑ m ∈ Finset.range order,
          (((1 / Real.sqrt (2 ^ (order + 1)) * (-1 : ℝ) ^ (mu * m) *
              Real.sqrt (Nat.choose (order + 1) m) : ℝ)) : ℂ) •
            fockVec hs ((S + 1) * m)) ∧
        vnorm w = 1 ∧
        (∀ i : Fin hs, (∀ m, m < order → (i : ℕ) ≠ (S + 1) * m) → w i = 0)) ∧
    (∀ draw : ℤ → ℤ, ∃ w, binomial 20 1 draw (some 3) 0 = Except.ok w ∧
      ∀ i : Fin 20, w i ≠ 0 ↔ ((i : ℕ) = 0 ∨ (i : ℕ) = 2 ∨ (i : ℕ) = 4)) := by
  have main : ∀ (hs S order mu : ℕ) (draw : ℤ → ℤ), 1 ≤ order → (S + 1) * (order - 1) < hs →
      ∃ w, binomial hs S draw (some (order : ℤ)) mu = Except.ok w ∧
        w = unitVec (∑ m ∈ Finset.range order,
          (((1 / Real.sqrt (2 ^ (order + 1)) * (-1 : ℝ) ^ (mu * m) *
              Real.sqrt (Nat.choose (order + 1) m) : ℝ)) : ℂ) •
            fockVec hs ((S + 1) * m)) ∧
        vnorm w = 1 ∧
        (∀ i : Fin hs, (∀ m, m < order → (i : ℕ) ≠ (S + 1) * m) → w i = 0) := by
    intro hs S order mu draw hord hlt
    have hs0 : 0 < hs := lt_of_le_of_lt (Nat.zero_le _) hlt
    have hacc : (∑ m ∈ Finset.range order,
        (((1 / Real.sqrt (2 ^ (order + 1)) * (-1 : ℝ) ^ (mu * m) *
            Real.sqrt (Nat.choose (order + 1) m) : ℝ)) : ℂ) •
          fockVec hs ((S + 1) * m)) ≠ 0 := by
      intro h0
      have h2 : (0 : Fin hs → ℂ) ⟨0, hs0⟩
          = (((1 / Real.sqrt (2 ^ (order + 1)) * (-1 : ℝ) ^ (mu * 0) *
              Real.sqrt (Nat.choose (order + 1) 0) : ℝ)) : ℂ) := by
        conv_lhs => rw [← h0]
        exact sum_smul_fockVec_apply_eq order
          (fun m => (((1 / Real.sqrt (2 ^ (order + 1)) * (-1 : ℝ) ^ (mu * m) *
              Real.sqrt (Nat.choose (order + 1) m) : ℝ)) : ℂ))
          (fun m => (S + 1) * m) ⟨0, hs0⟩ 0 (Finset.mem_range.mpr (by omega))
          (by simp) (fun m _ hne => by simpa using Nat.mul_ne_zero (Nat.succ_ne_zero S) hne)
      exact binom_coef_ne_zero order mu 0 (by omega) (by simpa using h2.symm)
    refine ⟨_, ?_, rfl, vnorm_unitVec hacc, ?_⟩
    · unfold binomial
      rw [if_neg (by omega : ¬ hs = 0), binomialOrder_some, Int.toNat_natCast,
        if_pos hlt]
      exact unitE_eq_ok hacc
    · intro i hi
      show unitVec _ i = 0
      unfold unitVec
      rw [Pi.smul_apply, sum_smul_fockVec_apply_zero order _ (fun m => (S + 1) * m) i
        (fun m hm => hi m (Finset.mem_range.1 hm)), smul_zero]
  refine ⟨main, ?_⟩
  intro draw
  obtain ⟨w, hok, hw, hnorm, hzero⟩ := main 20 1 3 0 draw (by norm_num) (by norm_num)
  have hacc : (∑ m ∈ Finset.range 3,
      (((1 / Real.sqrt (2 ^ (3 + 1)) * (-1 : ℝ) ^ (0 * m) *
          Real.sqrt (Nat.choose (3 + 1) m) : ℝ)) : ℂ) •
        fockVec 20 ((1 + 1) * m)) ≠ 0 := by
    intro h0
    rw [hw, h0, unitVec_zero, vnorm_zero] at hnorm
    norm_num at hnorm
  have hscale : (((vnorm (∑ m ∈ Finset.range 3,
      (((1 / Real.sqrt (2 ^ (3 + 1)) * (-1 : ℝ) ^ (0 * m) *
          Real.sqrt (Nat.choose (3 + 1) m) : ℝ)) : ℂ) •
        fockVec 20 ((1 + 1) * m)))⁻¹ : ℝ) : ℂ) ≠ 0 :=
    Complex.ofReal_ne_zero.mpr (inv_ne_zero (vnorm_pos hacc).ne')
  refine ⟨w, hok, fun i => ⟨?_, ?_⟩⟩
  · intro hne
    by_contra hnotin
    push_neg at hnotin
    exact hne (hzero i (fun m hm => by omega))
  · intro hdisj
    have happly : ∀ m₀ : ℕ, m₀ < 3 → (i : ℕ) = (1 + 1) * m₀ →
        w i = (((vnorm (∑ m ∈ Finset.range 3,
            (((1 / Real.sqrt (2 ^ (3 + 1)) * (-1 : ℝ) ^ (0 * m) *
                Real.sqrt (Nat.choose (3 + 1) m) : ℝ)) : ℂ) •
              fockVec 20 ((1 + 1) * m)))⁻¹ : ℝ) : ℂ) *
          (((1 / Real.sqrt (2 ^ (3 + 1)) * (-1 : ℝ) ^ (0 * m₀) *
              Real.sqrt (Nat.choose (3 + 1) m₀) : ℝ)) : ℂ) := by
      intro m₀ hm₀ hi
      rw [hw]
      unfold unitVec
      rw [Pi.smul_apply, smul_eq_mul,
        sum_smul_fockVec_apply_eq 3 _ (fun m => (1 + 1) * m) i m₀
          (Finset.mem_range.mpr hm₀) hi
          (fun m _ hne => by show (1 + 1) * m ≠ (1 + 1) * m₀; omega)]
    rcases hdisj with h0 | h2 | h4
    · rw [happly 0 (by omega) (by omega)]
      exact mul_ne_zero hscale (binom_coef_ne_zero 3 0 0 (by omega))
    · rw [happly 1 (by omega) (by omega)]
      exact mul_ne_zero hscale (binom_coef_ne_zero 3 0 1 (by omega))
    · rw [happly 2 (by omega) (by omega)]
      exact mul_ne_zero hscale (binom_coef_ne_zero 3 0 2 (by omega))

/-- C5 (witness): the general part applied at the claim's concrete scenario
`binomial(20, S=1, order=3, mu=0)`. -/
theorem binomial_support_and_amplitudes_witness :
    (1 ≤ 3 ∧ (1 + 1) * (3 - 1) < 20) ∧
      ∃ w, binomial 20 1 (fun z => z) (some ((3 : ℕ) : ℤ)) 0 = Except.ok w ∧
        w = unitVec (∑ m ∈ Finset.range 3,
          (((1 / Real.sqrt (2 ^ (3 + 1)) * (-1 : ℝ) ^ (0 * m) *
              Real.sqrt (Nat.choose (3 + 1) m) : ℝ)) : ℂ) •
            fockVec 20 ((1 + 1) * m)) ∧
        vnorm w = 1 ∧
        (∀ i : Fin 20, (∀ m, m < 3 → (i : ℕ) ≠ (1 + 1) * m) → w i = 0) :=
  ⟨⟨by norm_num, by norm_num⟩,
    binomial_support_and_amplitudes.1 20 1 3 0 (fun z => z) (by norm_num) (by norm_num)⟩

end QstCgan
